import Mathlib

/-!
# POLA file-access mediation: `libpola.c` and `polash.c`

A shallow embedding of the access-decision functions of `libpola.c`
(`open_2`, `opendir_2`, `isol_brace`, `log_sys`, `equal_string`) and of the
child branch of `main` in `polash.c` (tokenising the command line, extracting
the `+` grants, exporting `ALLOWED_WRITES`, calling `execvp`).

Conventions of the embedding:

* a NUL-terminated C string is the `List Char` of its characters before the
  terminator;
* `getenv` results are `Option (List Char)`, `none` being `NULL`;
* a function whose C execution dereferences `NULL` or reads or writes outside
  an object returns `none` (undefined behaviour);
* side effects (syslog, `errno`, calls of the original glibc functions) are
  threaded through an explicit `World`.
-/

namespace Pola

/-! ## The C library pieces the sources rely on -/

/-- The terminating character of a C string. -/
def NUL : Char := Char.ofNat 0

/-- Constants of `<fcntl.h>` and `<errno.h>` that the sources use and do not
define; every definition below takes them as a parameter. -/
structure Libc where
  O_RDONLY : Int
  O_WRONLY : Int
  O_RDWR : Int
  EACCES : Int
  deriving DecidableEq, Repr

/-- The values of the constants on Linux, used for concrete evaluations. -/
def linux : Libc := ⟨0, 1, 2, 13⟩

/-- The macro of `libpola.h`: `#define FLAGS (O_RDONLY | O_WRONLY | O_RDWR)`. -/
def FLAGS (K : Libc) : Int := Int.lor (Int.lor K.O_RDONLY K.O_WRONLY) K.O_RDWR

/-- Number of values of `size_t` (64-bit). -/
def SIZE_MOD : Nat := 2 ^ 64

/-- Subtraction `a - b` in `size_t`, wrapping around below zero. -/
def size_sub (a b : Nat) : Nat := (a + SIZE_MOD - b % SIZE_MOD) % SIZE_MOD

/-- The libc function `strlen`. -/
def strlen (s : List Char) : Nat := s.length

/-- The expression `s[i]` on a C string: a character of the string, the
terminator at `i = strlen s`, and an out-of-bounds read (`none`) beyond. -/
def char_at (s : List Char) (i : Nat) : Option Char :=
  if i < s.length then s.get? i
  else if i = s.length then some NUL
  else none

/-- The libc function `strstr` on non-`NULL` arguments: the offset of the first
occurrence of `needle` in `haystack`, or `none` for the `NULL` result. -/
def strstr : List Char → List Char → Option Nat
  | [], needle => if needle = [] then some 0 else none
  | c :: cs, needle =>
      if needle.isPrefixOf (c :: cs) then some 0
      else (strstr cs needle).map (· + 1)

/-- The bytes that `strncpy(dst, src, n)` writes to `dst[0..n)`: the first `n`
characters of `src`, padded with NUL when `src` is shorter than `n`. No
terminator is written when `strlen src ≥ n`. -/
def strncpy_bytes (src : List Char) (n : Nat) : List Char :=
  src.take n ++ List.replicate (n - src.length) NUL

/-- What a `const char*` handed to a callee points to. -/
inductive CharPtr
  /-- A NUL-terminated string with these characters. -/
  | string (s : List Char)
  /-- A heap block of `malloc` holding exactly these bytes and nothing more. -/
  | block (bytes : List Char)
  deriving DecidableEq, Repr

/-- The C string a callee reads through the pointer: for a heap block, the
bytes before its first NUL, and `none` when the block holds no NUL (the read
runs past the end of the allocation). -/
def CharPtr.read : CharPtr → Option (List Char)
  | .string s => some s
  | .block b => if NUL ∈ b then some (b.takeWhile (· ≠ NUL)) else none

/-! ## Process environment and observable effects -/

/-- The environment variables the library reads with `getenv`. -/
structure Environ where
  CMD_LINE : Option (List Char)
  ALLOWED_WRITES : Option (List Char)
  USERNAME : Option (List Char)
  deriving DecidableEq, Repr

/-- The arguments of one `syslog(LOG_NOTICE | LOG_AUTHPRIV,
"User %s requested non-authorized access to %s\n", user, pathname)` call;
`user` is the result of `getenv("USERNAME")`, which glibc prints as `(null)`
when it is `NULL`. -/
structure AuditRecord where
  user : Option (List Char)
  pathname : List Char
  deriving DecidableEq, Repr

/-- The state the library acts on. -/
structure World where
  /-- The value of `errno`. -/
  errno : Int
  /-- The records sent to the system log, oldest first. -/
  syslog : List AuditRecord
  /-- The calls of the original `open`, oldest first. -/
  opened : List (CharPtr × Int)
  /-- The calls of the original `opendir`, oldest first. -/
  opened_dirs : List CharPtr
  deriving DecidableEq, Repr

/-! ## `libpola.c` -/

/-- The function `equal_string` of `libpola.c`. -/
def equal_string (string1 string2 : List Char) : Nat :=
  if strlen string1 = strlen string2 ∧ strstr string1 string2 = some 0 then 1 else 0

/-- The function `isol_brace` of `libpola.c`. The result is the argument
itself, or a fresh block of `strlen string - 2` bytes filled by `strncpy`. -/
def isol_brace (string : List Char) : Option CharPtr :=
  (char_at string 0).bind fun c0 =>
    if c0 ≠ '<' then some (.string string)
    else (char_at string (size_sub (strlen string) 1)).bind fun cl =>
      if cl ≠ '>' then some (.string string)
      else
        let n := size_sub (strlen string) 2
        some (.block (strncpy_bytes (string.drop 1) n))

/-- The function `log_sys` of `libpola.c`. -/
def log_sys (env : Environ) (pathname : List Char) (w : World) : World :=
  { w with syslog := w.syslog ++ [⟨env.USERNAME, pathname⟩] }

/-- The exit `log_sys(pathname); errno = EACCES; return -1;` of `open_2`. -/
def open_denied (K : Libc) (env : Environ) (pathname : List Char) (w : World) :
    Int × World :=
  (-1, { log_sys env pathname w with errno := K.EACCES })

/-- The exit `return libc_open(name, flags);` of `open_2`. -/
def open_forward (libc_open : CharPtr → Int → Int) (name : CharPtr) (flags : Int)
    (w : World) : Int × World :=
  (libc_open name flags, { w with opened := w.opened ++ [(name, flags)] })

/-- The function `open_2` of `libpola.c`. -/
def open_2 (K : Libc) (env : Environ) (libc_open : CharPtr → Int → Int)
    (pathname : List Char) (flags : Int) (w : World) : Option (Int × World) :=
  let cmd := env.CMD_LINE
  let allowed_writes := env.ALLOWED_WRITES
  if Int.land flags (FLAGS K) = K.O_RDONLY then
    match cmd with
    | none => none
    | some cmd =>
        if (strstr cmd pathname).isSome then
          some (open_forward libc_open (.string pathname) flags w)
        else some (open_denied K env pathname w)
  else if Int.land flags (FLAGS K) = K.O_RDWR ∨ Int.land flags (FLAGS K) = K.O_WRONLY then
    (char_at pathname 0).bind fun c0 =>
      (if c0 = '<' then
          (char_at pathname (size_sub (strlen pathname) 1)).map fun cl => decide (cl = '>')
        else some false).bind fun wrapped =>
      (if wrapped then some true
        else match allowed_writes with
          | none => none
          | some aw => some (strstr aw pathname).isSome).bind fun granted =>
      if granted then
        if c0 = '<' then
          (isol_brace pathname).map fun file => open_forward libc_open file flags w
        else some (open_forward libc_open (.string pathname) flags w)
      else some (open_denied K env pathname w)
  else some (open_denied K env pathname w)

/-- The function `opendir_2` of `libpola.c`; `none` as a directory handle is
the `NULL` result. -/
def opendir_2 (K : Libc) (env : Environ) (libc_opendir : CharPtr → Option Nat)
    (dirname : List Char) (w : World) : Option (Option Nat × World) :=
  match env.CMD_LINE with
  | none => none
  | some cmd =>
      if (strstr cmd dirname).isSome then
        some (libc_opendir (.string dirname),
          { w with opened_dirs := w.opened_dirs ++ [.string dirname] })
      else some (none, { log_sys env dirname w with errno := K.EACCES })

/-- A world with nothing logged and nothing opened, for concrete evaluations. -/
def w0 : World := ⟨0, [], [], []⟩

/-- A stand-in for the original `open` that returns descriptor 3, for concrete
evaluations. -/
def lo3 : CharPtr → Int → Int := fun _ _ => 3

/-- A stand-in for the original `opendir` that returns handle 7, for concrete
evaluations. -/
def lod7 : CharPtr → Option Nat := fun _ => some 7

/-! ## `polash.c`: the child branch of `main` -/

/-- One `strtok` call with the delimiter set `" "` on the part of the line not
yet consumed: `none` is the `NULL` result, otherwise the token and the part
left for the next call. -/
def strtok (rest : List Char) : Option (List Char × List Char) :=
  match rest.dropWhile (· == ' ') with
  | [] => none
  | c :: cs =>
      some ((c :: cs).takeWhile (· != ' '), ((c :: cs).dropWhile (· != ' ')).drop 1)

/-- The tokens stored by `while ((args[i++] = strtok(NULL, " ")) != NULL)`;
`fuel` bounds the number of `strtok` calls. -/
def strtok_loop : Nat → List Char → List (List Char)
  | 0, _ => []
  | fuel + 1, rest =>
      match strtok rest with
      | none => []
      | some (tok, rest1) => tok :: strtok_loop fuel rest1

/-- The array `args` after the tokenising loop, `none` being a `NULL` entry:
`args[0]`, the further tokens, and the `NULL` that ended the loop. Its length
is the value of `i` when the loop ends. -/
def tokenize (cmd : List Char) : List (Option (List Char)) :=
  match strtok cmd with
  | none => [none, none]
  | some (t0, rest) => some t0 :: ((strtok_loop (rest.length + 1) rest).map some ++ [none])

/-- The state of the backwards loop: the array `args` and the buffer
`char allowed_writes[2048]`, given by its bytes up to the last one written so
far (the bytes after them are still the NUL of `memset`). -/
structure Child where
  args : List (Option (List Char))
  allowed_writes : List Char
  deriving DecidableEq, Repr

/-- A `strncpy(allowed_writes, src, n)` writing `bytes` at the start of the
buffer; `none` when it writes past the 2048 bytes. -/
def buf_write (buf bytes : List Char) : Option (List Char) :=
  if bytes.length ≤ 2048 then some (bytes ++ buf.drop bytes.length) else none

/-- The C string in `allowed_writes`; `none` when none of the 2048 bytes is
NUL. -/
def buf_string (buf : List Char) : Option (List Char) :=
  if NUL ∈ buf ∨ buf.length < 2048 then some (buf.takeWhile (· != NUL)) else none

/-- The body of the backwards loop at index `i`. -/
def grant_step (st : Child) (i : Nat) : Option Child :=
  match st.args.get? i with
  | some (some tok) =>
      (char_at tok 0).bind fun c0 =>
        if c0 = '+' then
          (buf_write st.allowed_writes (strncpy_bytes [' '] 1)).bind fun b1 =>
          (buf_write b1 (strncpy_bytes (tok.drop 1) (size_sub (strlen tok) 1))).map fun b2 =>
            { args := st.args.set i none, allowed_writes := b2 }
        else some st
  | _ => none

/-- The loop `for (i--; --i>0; )` after its initialisation `i--`: the argument
is the value of `i` before the next `--i`. -/
def grant_loop : Nat → Child → Option Child
  | 0, st => some st
  | i + 1, st => if 0 < i then (grant_step st i).bind (grant_loop i) else some st

/-- The entries of `args` that `execvp` reads: those before the first `NULL`. -/
def argv_of : List (Option (List Char)) → List (List Char)
  | some t :: rest => t :: argv_of rest
  | _ => []

/-- What the child hands over: the exported `ALLOWED_WRITES` and the two
arguments of `execvp(args[0], args)`. -/
structure Exec where
  ALLOWED_WRITES : List Char
  file : Option (List Char)
  argv : List (List Char)
  deriving DecidableEq, Repr

/-- The child branch of `main` in `polash.c`, lines 65 to 91, on the command
line `cmd` (the input line without its newline). -/
def main_child (cmd : List Char) : Option Exec :=
  let args := tokenize cmd
  (grant_loop (args.length - 1) ⟨args, []⟩).bind fun st =>
    (buf_string st.allowed_writes).map fun s =>
      { ALLOWED_WRITES := if strlen s = 0 then ['-', '1'] else s,
        file := st.args.head?.join,
        argv := argv_of st.args }

/-- The tokens of the command line in order: the entries of `args` before the
`NULL` that ends the tokenising loop. -/
def tokens (cmd : List Char) : List (List Char) := argv_of (tokenize cmd)

/-- The entry `args[i]` after the body of the backwards loop has run on the
token `tok`: `NULL` when `tok[0] == '+'`, the token otherwise. -/
def grant_mark (tok : List Char) : Option (List Char) :=
  if tok.head? = some '+' then none else some tok

/-- The buffer `allowed_writes` after the body of the backwards loop has run
on the given tokens, last token first, starting from the buffer `buf`; `none`
when a `strncpy` writes past the buffer. -/
def grant_fold : List (List Char) → List Char → Option (List Char)
  | [], buf => some buf
  | tok :: toks, buf =>
      (grant_fold toks buf).bind fun b =>
        if tok.head? = some '+' then
          (buf_write b (strncpy_bytes [' '] 1)).bind fun b1 =>
            buf_write b1 (strncpy_bytes (tok.drop 1) (size_sub (strlen tok) 1))
        else some b

/-- The characters stored at the pointer, terminator apart. -/
def CharPtr.chars : CharPtr → List Char
  | .string s => s
  | .block b => b

/-! ## Auxiliary facts about the C library model -/

theorem strstr_isSome_iff (h n : List Char) : (strstr h n).isSome = true ↔ n <:+: h := by
  induction h with
  | nil =>
      by_cases hn : n = []
      · simp [strstr, hn]
      · simp [strstr, hn]
  | cons c cs ih =>
      by_cases hp : n.isPrefixOf (c :: cs) = true
      · have hpre : n <+: c :: cs := List.isPrefixOf_iff_prefix.mp hp
        simp [strstr, hp, hpre.isInfix]
      · have hpre : ¬ n <+: c :: cs := fun h => hp (List.isPrefixOf_iff_prefix.mpr h)
        rw [List.infix_cons_iff]
        simp only [strstr, hp, Option.isSome_map']
        simp [ih, hpre]

theorem char_at_nil_zero : char_at [] 0 = some NUL := by
  simp [char_at]

theorem char_at_cons_zero (c : Char) (cs : List Char) : char_at (c :: cs) 0 = some c := by
  simp [char_at]

theorem size_sub_small (a b : Nat) (hb : b ≤ a) (ha : a < SIZE_MOD) :
    size_sub a b = a - b := by
  unfold size_sub
  have hb2 : b % SIZE_MOD = b := Nat.mod_eq_of_lt (lt_of_le_of_lt hb ha)
  rw [hb2]
  have : a + SIZE_MOD - b = (a - b) + SIZE_MOD := by omega
  rw [this, Nat.add_mod_right]
  exact Nat.mod_eq_of_lt (lt_of_le_of_lt (Nat.sub_le a b) ha)

theorem char_at_last (p : List Char) (hp : p ≠ []) (hlen : p.length < SIZE_MOD) :
    char_at p (size_sub (strlen p) 1) = p.getLast? := by
  have h1 : 1 ≤ p.length := List.length_pos.mpr hp
  rw [strlen, size_sub_small _ _ h1 hlen]
  have h2 : p.length - 1 < p.length := by omega
  simp [char_at, h2, List.getLast?_eq_getElem?]


theorem strncpy_bytes_wrapped (s : List Char) :
    strncpy_bytes (s ++ ['>']) s.length = s := by
  simp [strncpy_bytes]

theorem getLast_wrapped (s : List Char) : ('<' :: (s ++ ['>'])).getLast? = some '>' := by
  rw [← List.cons_append, List.getLast?_append]
  simp

theorem isol_brace_wrapped (s : List Char) (hlen : s.length + 2 < SIZE_MOD) :
    isol_brace ('<' :: (s ++ ['>'])) = some (.block s) := by
  have hl : ('<' :: (s ++ ['>'])).length < SIZE_MOD := by simpa using hlen
  have h2 : size_sub (strlen ('<' :: (s ++ ['>']))) 2 = s.length := by
    rw [strlen, size_sub_small _ _ (by simp) hl]; simp
  unfold isol_brace
  rw [char_at_cons_zero, char_at_last _ (by simp) hl, h2, getLast_wrapped]
  simp [strncpy_bytes_wrapped]

theorem isol_brace_plain (p : List Char) (hlen : p.length < SIZE_MOD)
    (hp : ¬ (p.head? = some '<' ∧ p.getLast? = some '>')) :
    isol_brace p = some (.string p) := by
  unfold isol_brace
  cases p with
  | nil => rw [char_at_nil_zero]; simp [NUL]
  | cons c cs =>
      rw [char_at_cons_zero, char_at_last _ (by simp) hlen]
      by_cases hc : c = '<'
      · subst hc
        have hl : (('<' :: cs).getLast?) ≠ some '>' := fun h => hp ⟨rfl, h⟩
        cases hg : ('<' :: cs).getLast? with
        | none => simp at hg
        | some cl =>
            have : cl ≠ '>' := fun h => hl (by rw [hg, h])
            simp [this]
      · simp [hc]

/-- The write branch of `open_2` on a path that is not wrapped in `<` and `>`. -/
theorem open_2_write_plain (K : Libc) (env : Environ) (lo : CharPtr → Int → Int)
    (p : List Char) (flags : Int) (w : World)
    (hr : Int.land flags (FLAGS K) ≠ K.O_RDONLY)
    (hw : Int.land flags (FLAGS K) = K.O_RDWR ∨ Int.land flags (FLAGS K) = K.O_WRONLY)
    (hlen : p.length < SIZE_MOD)
    (hp : ¬ (p.head? = some '<' ∧ p.getLast? = some '>')) :
    open_2 K env lo p flags w =
      match env.ALLOWED_WRITES with
      | none => none
      | some aw =>
          if (strstr aw p).isSome then some (open_forward lo (.string p) flags w)
          else some (open_denied K env p w) := by
  unfold open_2
  simp only [hr, hw, if_true, if_false]
  cases p with
  | nil =>
      rw [char_at_nil_zero]
      cases env.ALLOWED_WRITES with
      | none => simp [NUL]
      | some aw => by_cases h : (strstr aw []).isSome = true <;> simp [NUL, h]
  | cons c cs =>
      rw [char_at_cons_zero, char_at_last _ (by simp) hlen]
      by_cases hc : c = '<'
      · subst hc
        have hl : (('<' :: cs).getLast?) ≠ some '>' := fun h => hp ⟨rfl, h⟩
        have hi := isol_brace_plain ('<' :: cs) hlen hp
        cases hg : ('<' :: cs).getLast? with
        | none => simp at hg
        | some cl =>
            have hcl : cl ≠ '>' := fun h => hl (by rw [hg, h])
            cases env.ALLOWED_WRITES with
            | none => simp [hcl]
            | some aw =>
                by_cases h : (strstr aw ('<' :: cs)).isSome = true <;> simp [h, hi, hcl]
      · cases env.ALLOWED_WRITES with
        | none => simp [hc]
        | some aw => by_cases h : (strstr aw (c :: cs)).isSome = true <;> simp [h, hc]

/-- The write branch of `open_2` on a path wrapped in `<` and `>`. -/
theorem open_2_write_wrapped (K : Libc) (env : Environ) (lo : CharPtr → Int → Int)
    (s : List Char) (flags : Int) (w : World)
    (hr : Int.land flags (FLAGS K) ≠ K.O_RDONLY)
    (hw : Int.land flags (FLAGS K) = K.O_RDWR ∨ Int.land flags (FLAGS K) = K.O_WRONLY)
    (hlen : s.length + 2 < SIZE_MOD) :
    open_2 K env lo ('<' :: (s ++ ['>'])) flags w =
      some (open_forward lo (.block s) flags w) := by
  have hl : ('<' :: (s ++ ['>'])).length < SIZE_MOD := by simpa using hlen
  unfold open_2
  simp only [hr, hw, if_true, if_false]
  rw [char_at_cons_zero, char_at_last _ (by simp) hl, isol_brace_wrapped s hlen,
    getLast_wrapped]
  simp


/-! ## Properties of `open_2` and `opendir_2` -/

/-- C1: with the read-grants string set to `cmd`, a request whose access mode
is `O_RDONLY` is allowed exactly when the path occurs in `cmd` as a contiguous
substring; the allowed request calls the original `open` once, on the path as
given, and returns the result of that call; otherwise it is denied. -/
theorem open_2_read_iff_substring (K : Libc) (cmd p : List Char)
    (aw user : Option (List Char)) (lo : CharPtr → Int → Int) (flags : Int) (w : World)
    (hmode : Int.land flags (FLAGS K) = K.O_RDONLY) :
    (p <:+: cmd →
      open_2 K ⟨some cmd, aw, user⟩ lo p flags w =
        some (lo (.string p) flags, { w with opened := w.opened ++ [(.string p, flags)] }))
    ∧ (¬ p <:+: cmd →
      open_2 K ⟨some cmd, aw, user⟩ lo p flags w =
        some (-1, { w with syslog := w.syslog ++ [⟨user, p⟩], errno := K.EACCES }))
    ∧ (CharPtr.string p).read = some p := by
  refine ⟨fun h => ?_, fun h => ?_, rfl⟩
  · have hs : (strstr cmd p).isSome = true := (strstr_isSome_iff cmd p).mpr h
    simp [open_2, hmode, hs, open_forward]
  · have hs : ¬ (strstr cmd p).isSome = true := fun hh => h ((strstr_isSome_iff cmd p).mp hh)
    simp [open_2, hmode, hs, open_denied, log_sys]

theorem open_2_read_iff_substring_witness :
    Int.land 0 (FLAGS linux) = linux.O_RDONLY
    ∧ "<a.txt>".toList <:+: "cat <a.txt>".toList
    ∧ open_2 linux ⟨some "cat <a.txt>".toList, none, none⟩ lo3 "<a.txt>".toList 0 w0 =
        some (3, { w0 with opened := [(.string "<a.txt>".toList, 0)] }) :=
  ⟨by decide, ⟨"cat ".toList, [], by decide⟩,
    (open_2_read_iff_substring linux "cat <a.txt>".toList "<a.txt>".toList none none lo3 0 w0
      (by decide)).1 ⟨"cat ".toList, [], by decide⟩⟩


/-- C2: with the write grants set to `aw`, a request in mode `O_WRONLY` or
`O_RDWR` for a path that is not wrapped in `<` and `>` is allowed exactly when
the path occurs in `aw` as a substring; the allowed request calls the original
`open` on the path as given. Both modes are decided by the same rule. -/
theorem open_2_write_iff_granted (K : Libc) (aw p : List Char)
    (cmd user : Option (List Char)) (lo : CharPtr → Int → Int) (flags : Int) (w : World)
    (hw : K.O_WRONLY ≠ K.O_RDONLY) (hrw : K.O_RDWR ≠ K.O_RDONLY)
    (hmode : Int.land flags (FLAGS K) = K.O_WRONLY ∨ Int.land flags (FLAGS K) = K.O_RDWR)
    (hlen : p.length < SIZE_MOD)
    (hp : ¬ (p.head? = some '<' ∧ p.getLast? = some '>')) :
    (p <:+: aw →
      open_2 K ⟨cmd, some aw, user⟩ lo p flags w =
        some (lo (.string p) flags, { w with opened := w.opened ++ [(.string p, flags)] }))
    ∧ (¬ p <:+: aw →
      open_2 K ⟨cmd, some aw, user⟩ lo p flags w =
        some (-1, { w with syslog := w.syslog ++ [⟨user, p⟩], errno := K.EACCES }))
    ∧ (CharPtr.string p).read = some p := by
  have hr : Int.land flags (FLAGS K) ≠ K.O_RDONLY := by
    rcases hmode with h | h <;> rw [h] <;> assumption
  have he := open_2_write_plain K ⟨cmd, some aw, user⟩ lo p flags w hr hmode.symm hlen hp
  refine ⟨fun h => ?_, fun h => ?_, rfl⟩
  · have hs : (strstr aw p).isSome = true := (strstr_isSome_iff aw p).mpr h
    rw [he]; simp [hs, open_forward]
  · have hs : ¬ (strstr aw p).isSome = true := fun hh => h ((strstr_isSome_iff aw p).mp hh)
    rw [he]; simp [hs, open_denied, log_sys]

theorem open_2_write_iff_granted_witness :
    (Int.land 1 (FLAGS linux) = linux.O_WRONLY ∨ Int.land 1 (FLAGS linux) = linux.O_RDWR)
    ∧ "out.txt".toList <:+: "out.txt".toList
    ∧ open_2 linux ⟨none, some "out.txt".toList, none⟩ lo3 "out.txt".toList 1 w0 =
        some (3, { w0 with opened := [(.string "out.txt".toList, 1)] }) :=
  ⟨by decide, List.infix_refl _,
    (open_2_write_iff_granted linux "out.txt".toList "out.txt".toList none none lo3 1 w0
      (by decide) (by decide) (by decide) (by decide) (by decide)).1 (List.infix_refl _)⟩

/-- C3: a request in mode `O_WRONLY` or `O_RDWR` for the wrapped path
`<` ++ s ++ `>` is allowed whatever the write grants are (set, `-1` or unset),
but what the original `open` receives is the block `malloc`ed by `isol_brace`:
exactly the bytes of `s` with no terminator behind them, from which no C string
can be read. -/
theorem open_2_wrapped_forwards_block (K : Libc) (s : List Char)
    (cmd aw user : Option (List Char)) (lo : CharPtr → Int → Int) (flags : Int) (w : World)
    (hw : K.O_WRONLY ≠ K.O_RDONLY) (hrw : K.O_RDWR ≠ K.O_RDONLY)
    (hmode : Int.land flags (FLAGS K) = K.O_WRONLY ∨ Int.land flags (FLAGS K) = K.O_RDWR)
    (hlen : s.length + 2 < SIZE_MOD) (hnul : NUL ∉ s) :
    open_2 K ⟨cmd, aw, user⟩ lo ('<' :: (s ++ ['>'])) flags w =
        some (lo (.block s) flags, { w with opened := w.opened ++ [(.block s, flags)] })
    ∧ (CharPtr.block s).read = none := by
  have hr : Int.land flags (FLAGS K) ≠ K.O_RDONLY := by
    rcases hmode with h | h <;> rw [h] <;> assumption
  refine ⟨?_, ?_⟩
  · rw [open_2_write_wrapped K ⟨cmd, aw, user⟩ lo s flags w hr hmode.symm hlen]
    rfl
  · simp [CharPtr.read, hnul]

theorem open_2_wrapped_secret :
    open_2 linux ⟨some "tee <secret>".toList, none, some "bob".toList⟩ lo3
        "<secret>".toList 1 w0 =
      some (3, { w0 with opened := [(.block "secret".toList, 1)] })
    ∧ (CharPtr.block "secret".toList).read = none :=
  open_2_wrapped_forwards_block linux "secret".toList (some "tee <secret>".toList) none
    (some "bob".toList) lo3 1 w0 (by decide) (by decide) (by decide) (by decide) (by decide)

/-- Every `open_2` call has one of three outcomes: undefined behaviour, one
call of the original `open` whose result is returned, or the denial exit. -/
theorem open_2_outcomes (K : Libc) (env : Environ) (lo : CharPtr → Int → Int)
    (p : List Char) (flags : Int) (w : World) :
    open_2 K env lo p flags w = none
    ∨ (∃ name, open_2 K env lo p flags w = some (open_forward lo name flags w))
    ∨ open_2 K env lo p flags w = some (open_denied K env p w) := by
  unfold open_2
  by_cases hr : Int.land flags (FLAGS K) = K.O_RDONLY
  · simp only [hr, if_true]
    cases env.CMD_LINE with
    | none => exact Or.inl rfl
    | some cmd =>
        by_cases hs : (strstr cmd p).isSome = true
        · exact Or.inr (Or.inl ⟨.string p, by simp [hs]⟩)
        · exact Or.inr (Or.inr (by simp [hs]))
  · by_cases hw : Int.land flags (FLAGS K) = K.O_RDWR ∨ Int.land flags (FLAGS K) = K.O_WRONLY
    · simp only [hr, hw, if_true, if_false]
      cases char_at p 0 with
      | none => exact Or.inl rfl
      | some c0 =>
          simp only [Option.some_bind]
          cases (if c0 = '<' then
              (char_at p (size_sub (strlen p) 1)).map fun cl => decide (cl = '>')
            else some false) with
          | none => exact Or.inl rfl
          | some wrapped =>
              simp only [Option.some_bind]
              cases (if wrapped = true then some true
                else match env.ALLOWED_WRITES with
                  | none => none
                  | some aw => some (strstr aw p).isSome) with
              | none => exact Or.inl rfl
              | some granted =>
                  simp only [Option.some_bind]
                  cases granted with
                  | false => exact Or.inr (Or.inr (by simp))
                  | true =>
                      by_cases hc : c0 = '<'
                      · cases hi : isol_brace p with
                        | none => exact Or.inl (by simp [hc, hi])
                        | some file => exact Or.inr (Or.inl ⟨file, by simp [hc, hi]⟩)
                      · exact Or.inr (Or.inl ⟨.string p, by simp [hc]⟩)
    · exact Or.inr (Or.inr (by simp [hr, hw]))


/-- C4: an `open_2` call that is defined and does not forward to the original
`open` is a denial: it returns -1, sets `errno` to `EACCES`, appends exactly one
audit record carrying the requested path, and leaves the list of calls of the
original `open` untouched. A read request whose path is not a substring of the
read grants is such a denial. -/
theorem open_2_denied_effects (K : Libc) (env : Environ) (lo : CharPtr → Int → Int)
    (p : List Char) (flags : Int) (w : World) :
    (open_2 K env lo p flags w = none
      ∨ (∃ name, open_2 K env lo p flags w =
          some (lo name flags, { w with opened := w.opened ++ [(name, flags)] }))
      ∨ open_2 K env lo p flags w =
          some (-1, { w with syslog := w.syslog ++ [⟨env.USERNAME, p⟩], errno := K.EACCES }))
    ∧ (∀ cmd, env.CMD_LINE = some cmd → Int.land flags (FLAGS K) = K.O_RDONLY →
        ¬ p <:+: cmd →
        open_2 K env lo p flags w =
          some (-1, { w with syslog := w.syslog ++ [⟨env.USERNAME, p⟩], errno := K.EACCES })) := by
  refine ⟨open_2_outcomes K env lo p flags w, fun cmd hc hmode h => ?_⟩
  have hs : ¬ (strstr cmd p).isSome = true := fun hh => h ((strstr_isSome_iff cmd p).mp hh)
  simp [open_2, hmode, hc, hs, open_denied, log_sys]

theorem open_2_denied_effects_witness :
    open_2 linux ⟨some "cat a.txt".toList, some "-1".toList, some "bob".toList⟩ lo3
        "b.txt".toList 0 w0 =
      some (-1, { w0 with syslog := [⟨some "bob".toList, "b.txt".toList⟩], errno := 13 }) :=
  (open_2_denied_effects linux ⟨some "cat a.txt".toList, some "-1".toList, some "bob".toList⟩
    lo3 "b.txt".toList 0 w0).2 "cat a.txt".toList rfl (by decide)
    (fun h => by
      have hs := (strstr_isSome_iff "cat a.txt".toList "b.txt".toList).mpr h
      exact absurd hs (by decide))

/-- C5: a request whose access-mode bits equal none of `O_RDONLY`, `O_WRONLY`
and `O_RDWR` is denied for every path and every environment, unset variables
included: -1 is returned, `errno` is `EACCES`, one audit record is written and
the original `open` is not called. -/
theorem open_2_other_denied (K : Libc) (env : Environ) (lo : CharPtr → Int → Int)
    (p : List Char) (flags : Int) (w : World)
    (hr : Int.land flags (FLAGS K) ≠ K.O_RDONLY)
    (hw : Int.land flags (FLAGS K) ≠ K.O_WRONLY)
    (hrw : Int.land flags (FLAGS K) ≠ K.O_RDWR) :
    open_2 K env lo p flags w =
      some (-1, { w with syslog := w.syslog ++ [⟨env.USERNAME, p⟩], errno := K.EACCES }) := by
  simp [open_2, hr, hw, hrw, open_denied, log_sys]

theorem open_2_other_denied_witness :
    Int.land 3 (FLAGS linux) = 3
    ∧ open_2 linux ⟨none, none, none⟩ lo3 "a.txt".toList 3 w0 =
        some (-1, { w0 with syslog := [⟨none, "a.txt".toList⟩], errno := 13 }) :=
  ⟨by decide, open_2_other_denied linux ⟨none, none, none⟩ lo3 "a.txt".toList 3 w0
    (by decide) (by decide) (by decide)⟩

theorem infix_sentinel_iff (p : List Char) :
    p <:+: ['-', '1'] ↔ p = [] ∨ p = ['-'] ∨ p = ['1'] ∨ p = ['-', '1'] := by
  constructor
  · intro h
    rw [List.infix_cons_iff, List.infix_cons_iff, List.infix_nil] at h
    rcases h with h | h | h
    · rw [List.prefix_cons_iff] at h
      rcases h with h | ⟨t, rfl, h⟩
      · exact Or.inl h
      · rw [List.prefix_cons_iff] at h
        rcases h with h | ⟨t2, rfl, h⟩
        · exact Or.inr (Or.inl (by rw [h]))
        · rw [List.prefix_nil] at h
          exact Or.inr (Or.inr (Or.inr (by rw [h])))
    · rw [List.prefix_cons_iff] at h
      rcases h with h | ⟨t, rfl, h⟩
      · exact Or.inl h
      · rw [List.prefix_nil] at h
        exact Or.inr (Or.inr (Or.inl (by rw [h])))
    · exact Or.inl h
  · rintro (rfl | rfl | rfl | rfl)
    · exact List.nil_infix
    · exact ⟨[], ['1'], rfl⟩
    · exact ⟨['-'], [], rfl⟩
    · exact List.infix_refl _

/-- C6 as amended: with `ALLOWED_WRITES` equal to `-1`, a request in mode
`O_WRONLY` or `O_RDWR` for a path not wrapped in `<` and `>` is denied exactly
when the path is not a substring of `-1`; the four substrings of `-1` (the empty
path, `-`, `1` and `-1`) are allowed and forwarded to the original `open`. -/
theorem open_2_sentinel (K : Libc) (p : List Char) (cmd user : Option (List Char))
    (lo : CharPtr → Int → Int) (flags : Int) (w : World)
    (hw : K.O_WRONLY ≠ K.O_RDONLY) (hrw : K.O_RDWR ≠ K.O_RDONLY)
    (hmode : Int.land flags (FLAGS K) = K.O_WRONLY ∨ Int.land flags (FLAGS K) = K.O_RDWR)
    (hlen : p.length < SIZE_MOD)
    (hp : ¬ (p.head? = some '<' ∧ p.getLast? = some '>')) :
    (¬ (p = [] ∨ p = ['-'] ∨ p = ['1'] ∨ p = ['-', '1']) →
      open_2 K ⟨cmd, some ['-', '1'], user⟩ lo p flags w =
        some (-1, { w with syslog := w.syslog ++ [⟨user, p⟩], errno := K.EACCES }))
    ∧ ((p = [] ∨ p = ['-'] ∨ p = ['1'] ∨ p = ['-', '1']) →
      open_2 K ⟨cmd, some ['-', '1'], user⟩ lo p flags w =
        some (lo (.string p) flags, { w with opened := w.opened ++ [(.string p, flags)] })) := by
  have hr : Int.land flags (FLAGS K) ≠ K.O_RDONLY := by
    rcases hmode with h | h <;> rw [h] <;> assumption
  have he := open_2_write_plain K ⟨cmd, some ['-', '1'], user⟩ lo p flags w hr hmode.symm
    hlen hp
  refine ⟨fun h => ?_, fun h => ?_⟩
  · have hs : ¬ (strstr ['-', '1'] p).isSome = true := fun hh =>
      h ((infix_sentinel_iff p).mp ((strstr_isSome_iff _ p).mp hh))
    rw [he]; simp [hs, open_denied, log_sys]
  · have hs : (strstr ['-', '1'] p).isSome = true :=
      (strstr_isSome_iff _ p).mpr ((infix_sentinel_iff p).mpr h)
    rw [he]; simp [hs, open_forward]

theorem open_2_sentinel_witness :
    (Int.land 1 (FLAGS linux) = linux.O_WRONLY ∨ Int.land 1 (FLAGS linux) = linux.O_RDWR)
    ∧ open_2 linux ⟨none, some ['-', '1'], none⟩ lo3 "out.txt".toList 1 w0 =
        some (-1, { w0 with syslog := [⟨none, "out.txt".toList⟩], errno := 13 }) :=
  ⟨by decide,
    (open_2_sentinel linux "out.txt".toList none none lo3 1 w0 (by decide) (by decide)
      (by decide) (by decide) (by decide)).1 (by decide)⟩

/-- C6 fails as stated: with `ALLOWED_WRITES` equal to `-1`, the write request
for the undecorated path `1` is forwarded to the original `open`. -/
theorem open_2_sentinel_allows_one :
    open_2 linux ⟨some "touch 1".toList, some ['-', '1'], none⟩ lo3 ['1'] 1 w0 =
      some (3, { w0 with opened := [(.string ['1'], 1)] }) := by
  decide


/-- C7 as amended: an absent policy variable is not handled. With `CMD_LINE`
absent a read request to `open_2` and any request to `opendir_2` hand `NULL` to
`strstr` and have no defined outcome, and so has a write request for an
undecorated path with `ALLOWED_WRITES` absent. A variable that is present and
empty yields the denial for every non-empty path. -/
theorem policy_absent_or_empty (K : Libc) (p : List Char) (cmd aw user : Option (List Char))
    (lo : CharPtr → Int → Int) (lod : CharPtr → Option Nat) (flags : Int) (w : World)
    (hw : K.O_WRONLY ≠ K.O_RDONLY) (hrw : K.O_RDWR ≠ K.O_RDONLY)
    (hlen : p.length < SIZE_MOD) :
    (Int.land flags (FLAGS K) = K.O_RDONLY →
      open_2 K ⟨none, aw, user⟩ lo p flags w = none)
    ∧ opendir_2 K ⟨none, aw, user⟩ lod p w = none
    ∧ ((Int.land flags (FLAGS K) = K.O_WRONLY ∨ Int.land flags (FLAGS K) = K.O_RDWR) →
      ¬ (p.head? = some '<' ∧ p.getLast? = some '>') →
      open_2 K ⟨cmd, none, user⟩ lo p flags w = none)
    ∧ (Int.land flags (FLAGS K) = K.O_RDONLY → p ≠ [] →
      open_2 K ⟨some [], aw, user⟩ lo p flags w =
        some (-1, { w with syslog := w.syslog ++ [⟨user, p⟩], errno := K.EACCES }))
    ∧ (p ≠ [] →
      opendir_2 K ⟨some [], aw, user⟩ lod p w =
        some (none, { w with syslog := w.syslog ++ [⟨user, p⟩], errno := K.EACCES }))
    ∧ ((Int.land flags (FLAGS K) = K.O_WRONLY ∨ Int.land flags (FLAGS K) = K.O_RDWR) →
      ¬ (p.head? = some '<' ∧ p.getLast? = some '>') → p ≠ [] →
      open_2 K ⟨cmd, some [], user⟩ lo p flags w =
        some (-1, { w with syslog := w.syslog ++ [⟨user, p⟩], errno := K.EACCES })) := by
  have hmode_ne : (Int.land flags (FLAGS K) = K.O_WRONLY ∨ Int.land flags (FLAGS K) = K.O_RDWR) →
      Int.land flags (FLAGS K) ≠ K.O_RDONLY := by
    intro hmode
    rcases hmode with h | h <;> rw [h] <;> assumption
  have hempty : p ≠ [] → ¬ (strstr [] p).isSome = true := by
    intro hne hh
    exact hne (List.infix_nil.mp ((strstr_isSome_iff [] p).mp hh))
  refine ⟨fun hm => ?_, ?_, fun hm hp => ?_, fun hm hne => ?_, fun hne => ?_,
    fun hm hp hne => ?_⟩
  · simp [open_2, hm]
  · simp [opendir_2]
  · rw [open_2_write_plain K ⟨cmd, none, user⟩ lo p flags w (hmode_ne hm) hm.symm hlen hp]
  · simp [open_2, hm, hempty hne, open_denied, log_sys]
  · simp [opendir_2, hempty hne, log_sys]
  · rw [open_2_write_plain K ⟨cmd, some [], user⟩ lo p flags w (hmode_ne hm) hm.symm hlen hp]
    simp [hempty hne, open_denied, log_sys]

theorem policy_absent_or_empty_witness :
    open_2 linux ⟨none, none, none⟩ lo3 "a.txt".toList 0 w0 = none
    ∧ opendir_2 linux ⟨none, none, none⟩ lod7 "a.txt".toList w0 = none
    ∧ open_2 linux ⟨none, none, none⟩ lo3 "a.txt".toList 1 w0 = none
    ∧ open_2 linux ⟨some [], none, none⟩ lo3 "a.txt".toList 0 w0 =
        some (-1, { w0 with syslog := [⟨none, "a.txt".toList⟩], errno := 13 }) :=
  have h := policy_absent_or_empty linux "a.txt".toList none none none lo3 lod7 0 w0
    (by decide) (by decide) (by decide)
  have h1 := policy_absent_or_empty linux "a.txt".toList none none none lo3 lod7 1 w0
    (by decide) (by decide) (by decide)
  ⟨h.1 (by decide), h.2.1, h1.2.2.1 (by decide) (by decide), h.2.2.2.1 (by decide) (by decide)⟩

/-- C7 fails as stated: with `CMD_LINE` absent, a read request to `open_2` and a
request to `opendir_2` have no defined outcome, and with `ALLOWED_WRITES` absent
a write request for an undecorated path has none either; none is a denial. -/
theorem policy_absent_undefined :
    open_2 linux ⟨none, some ['-', '1'], some "bob".toList⟩ lo3 "a.txt".toList 0 w0 = none
    ∧ opendir_2 linux ⟨none, some ['-', '1'], some "bob".toList⟩ lod7 "docs".toList w0 = none
    ∧ open_2 linux ⟨some "cat a.txt".toList, none, some "bob".toList⟩ lo3 "a.txt".toList 1 w0
        = none := by
  decide

/-- C8: with the read-grants string set to `cmd`, `opendir_2` calls the original
`opendir` on the directory path as given exactly when that path is a substring
of `cmd`; otherwise it writes one audit record for the path, sets `errno` to
`EACCES` and returns `NULL` without calling the original. The write grants do
not enter the outcome, and a decorated path is treated like any other. -/
theorem opendir_2_iff_substring (K : Libc) (cmd d : List Char)
    (aw user : Option (List Char)) (lod : CharPtr → Option Nat) (w : World) :
    (d <:+: cmd →
      opendir_2 K ⟨some cmd, aw, user⟩ lod d w =
        some (lod (.string d), { w with opened_dirs := w.opened_dirs ++ [.string d] }))
    ∧ (¬ d <:+: cmd →
      opendir_2 K ⟨some cmd, aw, user⟩ lod d w =
        some (none, { w with syslog := w.syslog ++ [⟨user, d⟩], errno := K.EACCES }))
    ∧ (∀ aw2, opendir_2 K ⟨some cmd, aw2, user⟩ lod d w =
        opendir_2 K ⟨some cmd, aw, user⟩ lod d w)
    ∧ (CharPtr.string d).read = some d := by
  refine ⟨fun h => ?_, fun h => ?_, fun _ => rfl, rfl⟩
  · have hs : (strstr cmd d).isSome = true := (strstr_isSome_iff cmd d).mpr h
    simp [opendir_2, hs]
  · have hs : ¬ (strstr cmd d).isSome = true := fun hh => h ((strstr_isSome_iff cmd d).mp hh)
    simp [opendir_2, hs, log_sys]

theorem opendir_2_iff_substring_witness :
    opendir_2 linux ⟨some "ls <docs>".toList, none, none⟩ lod7 "<docs>".toList w0 =
        some (some 7, { w0 with opened_dirs := [.string "<docs>".toList] })
    ∧ opendir_2 linux ⟨some "ls <docs>".toList, some "/etc".toList, none⟩ lod7 "/etc".toList w0 =
        some (none, { w0 with syslog := [⟨none, "/etc".toList⟩], errno := 13 }) :=
  ⟨(opendir_2_iff_substring linux "ls <docs>".toList "<docs>".toList none none lod7 w0).1
      ⟨"ls ".toList, [], by decide⟩,
    (opendir_2_iff_substring linux "ls <docs>".toList "/etc".toList (some "/etc".toList) none
      lod7 w0).2.1 (fun h => by
        have hs := (strstr_isSome_iff "ls <docs>".toList "/etc".toList).mpr h
        exact absurd hs (by decide))⟩

/-! ## Properties of the child branch of `main` in `polash.c` -/

/-- C9: on the command line `cat +secret.txt -o out.txt` the array handed to
`execvp` ends at the `NULL` written over the grant token: the argument vector is
`cat` alone, and the tokens `-o` and `out.txt` after the grant are lost. -/
theorem main_child_argv_truncated :
    main_child "cat +secret.txt -o out.txt".toList =
      some ⟨"secret.txt".toList, some "cat".toList, ["cat".toList]⟩ := by
  decide

/-- C10: on the command line `cp +ab +wxyz` each grant is copied to the start of
the buffer, over the one before: the exported value is `abyz`, in which the
grant `wxyz` is not present and no space separates the grants. -/
theorem main_child_grants_overwritten :
    main_child "cp +ab +wxyz".toList =
      some ⟨"abyz".toList, some "cp".toList, ["cp".toList]⟩
    ∧ (strstr "abyz".toList "wxyz".toList) = none := by
  decide


/-! ## Auxiliary facts about the tokenising and the backwards loop -/

theorem strtok_token_ne_nil (rest tok rest1 : List Char)
    (h : strtok rest = some (tok, rest1)) : tok ≠ [] := by
  unfold strtok at h
  split at h
  · exact absurd h (by simp)
  · rename_i c cs hd
    have hc : (c == ' ') = false := by
      have := List.head_dropWhile_not (· == ' ') rest (by rw [hd]; simp)
      simpa [hd] using this
    have hc2 : (c != ' ') = true := by simp [bne, hc]
    simp only [Option.some.injEq, Prod.mk.injEq] at h
    rw [← h.1, List.takeWhile_cons, hc2]
    simp

theorem strtok_loop_ne_nil (fuel : Nat) (rest : List Char) :
    ∀ t ∈ strtok_loop fuel rest, t ≠ [] := by
  induction fuel generalizing rest with
  | zero => intro t ht; simp [strtok_loop] at ht
  | succ n ih =>
      intro t ht
      unfold strtok_loop at ht
      split at ht
      · simp at ht
      · rename_i tok rest1 hs
        rcases List.mem_cons.mp ht with h | h
        · rw [h]; exact strtok_token_ne_nil rest tok rest1 hs
        · exact ih rest1 t h

theorem argv_of_map_some (l : List (List Char)) (post : List (Option (List Char))) :
    argv_of (l.map some ++ none :: post) = l := by
  induction l with
  | nil => simp [argv_of]
  | cons a l ih => simp [argv_of, ih]

theorem tokenize_of_tokens_nil (cmd : List Char) (h : tokens cmd = []) :
    tokenize cmd = [none, none] := by
  unfold tokens tokenize at h
  unfold tokenize
  split
  · rfl
  · rename_i t0 rest hs
    rw [hs] at h
    simp [argv_of] at h

theorem tokenize_of_tokens_cons (cmd t0 : List Char) (ts : List (List Char))
    (h : tokens cmd = t0 :: ts) :
    tokenize cmd = some t0 :: (ts.map some ++ [none]) := by
  unfold tokens tokenize at h
  unfold tokenize
  split
  · rename_i hs
    rw [hs] at h
    simp [argv_of] at h
  · rename_i u0 rest hs
    rw [hs] at h
    simp only [argv_of, argv_of_map_some, List.cons.injEq] at h
    rw [h.1, h.2]

theorem tokens_ne_nil (cmd : List Char) : ∀ t ∈ tokens cmd, t ≠ [] := by
  unfold tokens tokenize
  split
  · intro t ht; simp [argv_of] at ht
  · rename_i t0 rest hs
    intro t ht
    simp only [argv_of, argv_of_map_some] at ht
    rcases List.mem_cons.mp ht with h | h
    · rw [h]; exact strtok_token_ne_nil cmd t0 rest hs
    · exact strtok_loop_ne_nil _ _ t h


theorem grant_fold_append (xs ys : List (List Char)) (b : List Char) :
    grant_fold (xs ++ ys) b = (grant_fold ys b).bind (grant_fold xs) := by
  induction xs with
  | nil => simp [grant_fold]
  | cons x xs ih =>
      rw [List.cons_append]
      simp only [grant_fold]
      rw [ih, Option.bind_assoc]

theorem grant_fold_single (t b : List Char) :
    grant_fold [t] b =
      if t.head? = some '+' then
        (buf_write b (strncpy_bytes [' '] 1)).bind fun b1 =>
          buf_write b1 (strncpy_bytes (t.drop 1) (size_sub (strlen t) 1))
      else some b := by
  simp only [grant_fold, Option.some_bind]

theorem option_bind_map_comm {α β : Type} (X : Option α) (Y : α → Option α) (f : α → β) :
    (X.bind fun a => (Y a).map f) = (X.bind Y).map f := by
  cases X with
  | none => rfl
  | some a => rfl

theorem grant_step_eq (args : List (Option (List Char))) (b t : List Char) (i : Nat)
    (hi : args.get? i = some (some t)) (ht : t ≠ []) :
    grant_step ⟨args, b⟩ i =
      (grant_fold [t] b).map fun b1 =>
        ⟨if t.head? = some '+' then args.set i none else args, b1⟩ := by
  cases t with
  | nil => exact absurd rfl ht
  | cons c cs =>
      rw [grant_fold_single]
      unfold grant_step
      simp only [hi]
      rw [char_at_cons_zero]
      simp only [Option.some_bind, List.head?_cons, Option.some.injEq]
      generalize strncpy_bytes ((c :: cs).drop 1) (size_sub (strlen (c :: cs)) 1) = bytes
      generalize strncpy_bytes [' '] 1 = sp
      by_cases hc : c = '+'
      · rw [if_pos hc, if_pos hc, if_pos hc]
        exact option_bind_map_comm (buf_write b sp) (fun a => buf_write a bytes) _
      · rw [if_neg hc, if_neg hc, if_neg hc]
        exact rfl

theorem grant_loop_eq (mid : List (List Char)) (hmid : ∀ t ∈ mid, t ≠ [])
    (a0 : Option (List Char)) (post : List (Option (List Char))) (b : List Char) :
    grant_loop (mid.length + 1) ⟨a0 :: (mid.map some ++ post), b⟩ =
      (grant_fold mid b).map fun b1 => ⟨a0 :: (mid.map grant_mark ++ post), b1⟩ := by
  induction mid using List.reverseRecOn generalizing post b with
  | nil => simp [grant_loop, grant_fold]
  | append_singleton mid t ih =>
      have ht : t ≠ [] := hmid t (by simp)
      have hm : ∀ u ∈ mid, u ≠ [] := fun u hu => hmid u (by simp [hu])
      have hget : (a0 :: ((mid ++ [t]).map some ++ post)).get? (mid.length + 1) =
          some (some t) := by
        have e : a0 :: ((mid ++ [t]).map some ++ post) =
            (a0 :: mid.map some) ++ (some t :: post) := by simp
        rw [e, List.get?_eq_getElem?, List.getElem?_append_right (by simp)]
        simp
      have hset : (a0 :: ((mid ++ [t]).map some ++ post)).set (mid.length + 1) none =
          a0 :: (mid.map some ++ none :: post) := by
        simp [List.set_append_right]
      rw [List.length_append, List.length_singleton]
      unfold grant_loop
      simp only [Nat.succ_pos, if_true]
      rw [grant_step_eq _ b t _ hget ht, grant_fold_append, hset]
      cases hf : grant_fold [t] b with
      | none => simp
      | some b1 =>
          simp only [Option.map_some', Option.some_bind]
          by_cases hc : t.head? = some '+'
          · simp only [hc, if_true]
            rw [ih hm (none :: post) b1]
            simp [grant_mark, hc]
          · simp only [hc, if_false]
            have : a0 :: ((mid ++ [t]).map some ++ post) =
                a0 :: (mid.map some ++ some t :: post) := by simp
            rw [this, ih hm (some t :: post) b1]
            simp [grant_mark, hc]


theorem argv_of_grant_mark (ts : List (List Char)) :
    argv_of (ts.map grant_mark ++ [none]) =
      ts.takeWhile fun t => decide (t.head? ≠ some '+') := by
  induction ts with
  | nil => rfl
  | cons t ts ih =>
      by_cases hc : t.head? = some '+'
      · simp only [List.map_cons, List.cons_append, grant_mark, if_pos hc, argv_of,
          List.takeWhile_cons]
        simp [hc]
      · simp only [List.map_cons, List.cons_append, grant_mark, if_neg hc, argv_of,
          List.takeWhile_cons, ih]
        simp [hc]

/-- The child branch on a command line without tokens. -/
theorem main_child_of_tokens_nil (cmd : List Char) (h : tokens cmd = []) :
    main_child cmd = some ⟨['-', '1'], none, []⟩ := by
  unfold main_child
  rw [tokenize_of_tokens_nil cmd h]
  rfl

/-- The child branch on a command line with the tokens `t0 :: ts`. -/
theorem main_child_of_tokens_cons (cmd t0 : List Char) (ts : List (List Char))
    (h : tokens cmd = t0 :: ts) :
    main_child cmd =
      (grant_fold ts []).bind fun b =>
        (buf_string b).map fun s =>
          ⟨if strlen s = 0 then ['-', '1'] else s, some t0,
            t0 :: ts.takeWhile fun t => decide (t.head? ≠ some '+')⟩ := by
  have hts : ∀ t ∈ ts, t ≠ [] := fun t ht =>
    tokens_ne_nil cmd t (by rw [h]; exact List.mem_cons_of_mem _ ht)
  have hlen : (some t0 :: (ts.map some ++ [none])).length - 1 = ts.length + 1 := by simp
  unfold main_child
  rw [tokenize_of_tokens_cons cmd t0 ts h]
  simp only []
  rw [hlen, grant_loop_eq ts hts (some t0) [none] []]
  generalize grant_fold ts [] = X
  cases X with
  | none => rfl
  | some b =>
      simp only [Option.map_some', Option.some_bind, List.head?_cons, Option.join, argv_of,
        argv_of_grant_mark]
      generalize buf_string b = Y
      cases Y with
      | none => rfl
      | some s => rfl


theorem buf_write_ok (b bytes : List Char) (h : bytes.length ≤ 2048) :
    buf_write b bytes = some (bytes ++ b.drop bytes.length) := by
  unfold buf_write
  rw [if_pos h]

theorem buf_string_ok (b : List Char) (h : b.length < 2048) :
    buf_string b = some (b.takeWhile (· != NUL)) := by
  unfold buf_string
  rw [if_pos (Or.inr h)]

theorem takeWhile_no_nul (b : List Char) (h : NUL ∉ b) : b.takeWhile (· != NUL) = b := by
  rw [List.takeWhile_eq_self_iff]
  intro c hc
  have : c ≠ NUL := fun e => h (e ▸ hc)
  simpa using this

theorem strncpy_bytes_space : strncpy_bytes [' '] 1 = [' '] := by
  simp [strncpy_bytes]

theorem strncpy_bytes_tail (t : List Char) (ht : t ≠ []) (hlen : t.length ≤ 2048) :
    strncpy_bytes (t.drop 1) (size_sub (strlen t) 1) = t.drop 1 := by
  have h1 : 1 ≤ t.length := List.length_pos.mpr ht
  have h2 : t.length < SIZE_MOD := lt_of_le_of_lt hlen (by norm_num [SIZE_MOD])
  rw [strlen, size_sub_small _ _ h1 h2]
  simp [strncpy_bytes]

theorem grant_fold_cons_unmarked (t : List Char) (ts : List (List Char)) (b : List Char)
    (ht : t.head? ≠ some '+') : grant_fold (t :: ts) b = grant_fold ts b := by
  simp only [grant_fold, if_neg ht]
  cases grant_fold ts b with
  | none => rfl
  | some b1 => exact rfl

theorem grant_fold_unmarked (ts : List (List Char)) (b : List Char)
    (h : ∀ t ∈ ts, t.head? ≠ some '+') : grant_fold ts b = some b := by
  induction ts with
  | nil => rfl
  | cons t ts ih =>
      rw [grant_fold_cons_unmarked t ts b (h t (by simp))]
      exact ih fun u hu => h u (by simp [hu])

theorem grant_fold_cons_marked (t : List Char) (ts : List (List Char)) (b b1 : List Char)
    (ht : t.head? = some '+') (hlen : t.length ≤ 2048) (hf : grant_fold ts b = some b1) :
    grant_fold (t :: ts) b =
      some (t.drop 1 ++ ([' '] ++ b1.drop 1).drop (t.drop 1).length) := by
  have hne : t ≠ [] := by
    intro e
    rw [e] at ht
    exact absurd ht (by simp)
  have hl : (t.drop 1).length ≤ 2048 := by
    rw [List.length_drop]; omega
  have hsp : ([' '] : List Char).length ≤ 2048 := by
    rw [List.length_singleton]; omega
  rw [grant_fold, hf, Option.some_bind, if_pos ht, strncpy_bytes_space,
    strncpy_bytes_tail t hne hlen, buf_write_ok b1 [' '] hsp, Option.some_bind,
    buf_write_ok _ _ hl, List.length_singleton]


theorem marked_ne_nil (t : List Char) (ht : t.head? = some '+') : t ≠ [] := by
  intro e
  rw [e] at ht
  exact absurd ht (by simp)

/-- When every marked token fits the buffer, the backwards loop stays inside it
and leaves room for the terminator. -/
theorem grant_fold_fits (ts : List (List Char)) (b : List Char)
    (hfit : ∀ t ∈ ts, t.head? = some '+' → t.length ≤ 2048) (hb : b.length < 2048) :
    ∃ b1, grant_fold ts b = some b1 ∧ b1.length < 2048 := by
  induction ts with
  | nil => exact ⟨b, rfl, hb⟩
  | cons t ts ih =>
      obtain ⟨b1, hf, hb1⟩ := ih fun u hu => hfit u (List.mem_cons_of_mem _ hu)
      by_cases ht : t.head? = some '+'
      · have hlen := hfit t (List.mem_cons_self _ _) ht
        refine ⟨_, grant_fold_cons_marked t ts b b1 ht hlen hf, ?_⟩
        have h1 : 1 ≤ t.length := List.length_pos.mpr (marked_ne_nil t ht)
        simp only [List.length_append, List.length_drop, List.length_cons, List.length_nil]
        omega
      · exact ⟨b1, by rw [grant_fold_cons_unmarked t ts b ht]; exact hf, hb1⟩

theorem grant_fold_no_nul (ts : List (List Char)) (b b1 : List Char)
    (hfit : ∀ t ∈ ts, t.head? = some '+' → t.length ≤ 2048)
    (hnul : ∀ t ∈ ts, NUL ∉ t) (hb : NUL ∉ b) (hf : grant_fold ts b = some b1) :
    NUL ∉ b1 := by
  induction ts generalizing b1 with
  | nil =>
      have : b = b1 := by simpa [grant_fold] using hf
      rw [← this]; exact hb
  | cons t ts ih =>
      by_cases ht : t.head? = some '+'
      · have hlen := hfit t (List.mem_cons_self _ _) ht
        cases hg : grant_fold ts b with
        | none =>
            rw [grant_fold, hg] at hf
            exact absurd hf (by simp)
        | some b2 =>
            have hb2 : NUL ∉ b2 :=
              ih b2 (fun u hu => hfit u (List.mem_cons_of_mem _ hu))
                (fun u hu => hnul u (List.mem_cons_of_mem _ hu)) hg
            rw [grant_fold_cons_marked t ts b b2 ht hlen hg] at hf
            have e := Option.some.inj hf
            rw [← e]
            intro hmem
            rcases List.mem_append.mp hmem with h | h
            · exact hnul t (List.mem_cons_self _ _) (List.mem_of_mem_drop h)
            · have h2 := List.mem_of_mem_drop h
              rcases List.mem_append.mp h2 with h3 | h3
              · have : NUL = ' ' := by simpa using h3
                exact absurd this (by decide)
              · exact hb2 (List.mem_of_mem_drop h3)
      · rw [grant_fold_cons_unmarked t ts b ht] at hf
        exact ih b1 (fun u hu => hfit u (List.mem_cons_of_mem _ hu))
          (fun u hu => hnul u (List.mem_cons_of_mem _ hu)) hf

theorem strtok_subset (rest tok rest1 : List Char) (h : strtok rest = some (tok, rest1)) :
    (∀ c ∈ tok, c ∈ rest) ∧ (∀ c ∈ rest1, c ∈ rest) := by
  unfold strtok at h
  split at h
  · exact absurd h (by simp)
  · rename_i c cs hd
    simp only [Option.some.injEq, Prod.mk.injEq] at h
    have hsub : ∀ x ∈ c :: cs, x ∈ rest := by
      intro x hx
      rw [← hd] at hx
      exact (List.dropWhile_suffix _).subset hx
    constructor
    · intro x hx
      rw [← h.1] at hx
      exact hsub x ((List.takeWhile_prefix _).subset hx)
    · intro x hx
      rw [← h.2] at hx
      exact hsub x ((List.dropWhile_suffix _).subset (List.mem_of_mem_drop hx))

theorem strtok_loop_subset (fuel : Nat) (rest : List Char) :
    ∀ t ∈ strtok_loop fuel rest, ∀ c ∈ t, c ∈ rest := by
  induction fuel generalizing rest with
  | zero => intro t ht; simp [strtok_loop] at ht
  | succ n ih =>
      intro t ht c hc
      unfold strtok_loop at ht
      split at ht
      · simp at ht
      · rename_i tok rest1 hs
        have hsub := strtok_subset rest tok rest1 hs
        rcases List.mem_cons.mp ht with h | h
        · rw [h] at hc; exact hsub.1 c hc
        · exact hsub.2 c (ih rest1 t h c hc)

theorem tokens_subset (cmd : List Char) : ∀ t ∈ tokens cmd, ∀ c ∈ t, c ∈ cmd := by
  unfold tokens tokenize
  split
  · intro t ht; simp [argv_of] at ht
  · rename_i t0 rest hs
    intro t ht c hc
    simp only [argv_of, argv_of_map_some] at ht
    have hsub := strtok_subset cmd t0 rest hs
    rcases List.mem_cons.mp ht with h | h
    · rw [h] at hc; exact hsub.1 c hc
    · exact hsub.2 c (strtok_loop_subset _ rest t h c hc)


/-! ## The tokens are the non-empty pieces between spaces -/

theorem splitOnP_takeWhile_dropWhile (p : Char → Bool) (l : List Char) :
    l.splitOnP p =
      l.takeWhile (fun c => !p c) ::
        (match l.dropWhile (fun c => !p c) with
          | [] => []
          | _ :: r => r.splitOnP p) := by
  induction l with
  | nil => rfl
  | cons x xs ih =>
      rw [List.splitOnP_cons]
      by_cases hx : p x = true
      · simp [hx]
      · have hx2 : p x = false := by simpa using hx
        rw [if_neg hx, ih]
        simp [List.modifyHead, hx2]


theorem pieces_dropWhile (l : List Char) :
    (l.splitOnP (· == ' ')).filter (fun t => decide (t ≠ [])) =
      ((l.dropWhile (· == ' ')).splitOnP (· == ' ')).filter (fun t => decide (t ≠ [])) := by
  induction l with
  | nil => rfl
  | cons x xs ih =>
      by_cases hx : (x == ' ') = true
      · rw [List.splitOnP_cons, if_pos hx, List.dropWhile_cons, if_pos hx, ← ih]
        simp
      · rw [List.dropWhile_cons, if_neg hx]

theorem strtok_none_pieces (l : List Char) (h : strtok l = none) :
    (l.splitOnP (· == ' ')).filter (fun t => decide (t ≠ [])) = [] := by
  unfold strtok at h
  split at h
  · rename_i hd
    rw [pieces_dropWhile, hd]
    rfl
  · exact absurd h (by simp)

theorem strtok_some_pieces (l tok rest1 : List Char) (h : strtok l = some (tok, rest1)) :
    (l.splitOnP (· == ' ')).filter (fun t => decide (t ≠ [])) =
      tok :: (rest1.splitOnP (· == ' ')).filter (fun t => decide (t ≠ [])) := by
  have hne := strtok_token_ne_nil l tok rest1 h
  unfold strtok at h
  split at h
  · exact absurd h (by simp)
  · rename_i c cs hd
    simp only [Option.some.injEq, Prod.mk.injEq] at h
    have e1 : (fun c : Char => !(c == ' ')) = (fun c : Char => c != ' ') := rfl
    rw [pieces_dropWhile, hd, splitOnP_takeWhile_dropWhile, e1, h.1, List.filter_cons,
      if_pos (decide_eq_true hne)]
    congr 1
    rw [← h.2]
    cases hdw : (c :: cs).dropWhile (fun c => c != ' ') with
    | nil => rfl
    | cons y r => rfl

theorem strtok_rest_length (l tok rest1 : List Char) (h : strtok l = some (tok, rest1)) :
    rest1.length < l.length := by
  unfold strtok at h
  split at h
  · exact absurd h (by simp)
  · rename_i c cs hd
    simp only [Option.some.injEq, Prod.mk.injEq] at h
    have h1 : (c :: cs).length ≤ l.length := by
      rw [← hd]; exact (List.dropWhile_suffix _).length_le
    have h2 : ((c :: cs).dropWhile (fun c => c != ' ')).length ≤ cs.length := by
      have hc : (c == ' ') = false := by
        have := List.head_dropWhile_not (· == ' ') l (by rw [hd]; simp)
        simpa [hd] using this
      have hc2 : (c != ' ') = true := by simp [bne, hc]
      rw [List.dropWhile_cons, if_pos hc2]
      exact (List.dropWhile_suffix _).length_le
    rw [← h.2, List.length_drop]
    rw [List.length_cons] at h1
    omega

/-- With enough fuel the tokenising loop yields the non-empty pieces of the
line between spaces. -/
theorem strtok_loop_pieces (fuel : Nat) (l : List Char) (hf : l.length < fuel) :
    strtok_loop fuel l = (l.splitOnP (· == ' ')).filter (fun t => decide (t ≠ [])) := by
  induction fuel generalizing l with
  | zero => exact absurd hf (Nat.not_lt_zero _)
  | succ n ih =>
      unfold strtok_loop
      split
      · rename_i hs
        exact (strtok_none_pieces l hs).symm
      · rename_i tok rest1 hs
        have hl := strtok_rest_length l tok rest1 hs
        rw [strtok_some_pieces l tok rest1 hs, ih rest1 (by omega)]

/-- The tokens of a command line are the non-empty pieces between its spaces, in
order. -/
theorem tokens_eq_pieces (cmd : List Char) :
    tokens cmd = (cmd.splitOn ' ').filter (fun t => decide (t ≠ [])) := by
  show tokens cmd = (cmd.splitOnP (· == ' ')).filter (fun t => decide (t ≠ []))
  unfold tokens tokenize
  split
  · rename_i hs
    rw [strtok_none_pieces cmd hs]
    rfl
  · rename_i t0 rest hs
    rw [strtok_some_pieces cmd t0 rest hs, argv_of, argv_of_map_some,
      strtok_loop_pieces _ rest (Nat.lt_succ_self _)]

/-! ## Properties of the command classification in `polash.c` -/

theorem buf_string_nil : buf_string [] = some [] := by
  rw [buf_string_ok [] (by rw [List.length_nil]; omega)]
  rfl

theorem takeWhile_unmarked (ts : List (List Char)) (h : ∀ t ∈ ts, t.head? ≠ some '+') :
    (ts.takeWhile fun t => decide (t.head? ≠ some '+')) = ts := by
  rw [List.takeWhile_eq_self_iff]
  intro t ht
  exact decide_eq_true (h t ht)

/-- The child branch when no token after the first carries the marker. -/
theorem main_child_unmarked (cmd t0 : List Char) (ts : List (List Char))
    (h : tokens cmd = t0 :: ts) (hts : ∀ t ∈ ts, t.head? ≠ some '+') :
    main_child cmd = some ⟨['-', '1'], some t0, t0 :: ts⟩ := by
  rw [main_child_of_tokens_cons cmd t0 ts h, grant_fold_unmarked ts [] hts, Option.some_bind,
    buf_string_nil, Option.map_some', takeWhile_unmarked ts hts]
  rfl

/-- C11: when no token of the command line begins with `+`, the exported
`ALLOWED_WRITES` is the sentinel `-1` and `execvp` receives all tokens in
order. -/
theorem main_child_no_grants (cmd : List Char)
    (h : ∀ t ∈ tokens cmd, t.head? ≠ some '+') :
    main_child cmd = some ⟨['-', '1'], (tokens cmd).head?, tokens cmd⟩ := by
  cases htk : tokens cmd with
  | nil => exact main_child_of_tokens_nil cmd htk
  | cons t0 ts =>
      rw [htk] at h
      exact main_child_unmarked cmd t0 ts htk fun t ht => h t (List.mem_cons_of_mem _ ht)

theorem main_child_no_grants_witness :
    main_child "ls -la".toList =
      some ⟨"-1".toList, some "ls".toList, ["ls".toList, "-la".toList]⟩ :=
  main_child_no_grants "ls -la".toList (by decide)

/-- C12: the first token is never examined for the marker. Whenever the child
branch reaches `execvp`, the program and `argv[0]` are the first token as it
is, and it does so whenever the marked tokens after the first fit the buffer;
when no token after the first is marked the export is the sentinel `-1`, also
when the first token begins with `+`; and two command lines with the same
tokens after the first export the same `ALLOWED_WRITES`. -/
theorem main_child_first_token (cmd t0 : List Char) (ts : List (List Char))
    (h : tokens cmd = t0 :: ts) :
    (∀ e, main_child cmd = some e → e.file = some t0 ∧ e.argv.head? = some t0)
    ∧ ((∀ t ∈ ts, t.head? = some '+' → t.length ≤ 2048) → ∃ e, main_child cmd = some e)
    ∧ ((∀ t ∈ ts, t.head? ≠ some '+') →
        main_child cmd = some ⟨['-', '1'], some t0, t0 :: ts⟩)
    ∧ (∀ cmd2 u0, tokens cmd2 = u0 :: ts →
        (main_child cmd2).map (fun e => e.ALLOWED_WRITES) =
          (main_child cmd).map (fun e => e.ALLOWED_WRITES)) := by
  refine ⟨?_, ?_, main_child_unmarked cmd t0 ts h, ?_⟩
  · intro e he
    rw [main_child_of_tokens_cons cmd t0 ts h] at he
    generalize grant_fold ts [] = X at he
    cases X with
    | none => exact absurd he (by simp)
    | some b =>
        rw [Option.some_bind] at he
        generalize buf_string b = Y at he
        cases Y with
        | none => exact absurd he (by simp)
        | some s =>
            rw [Option.map_some'] at he
            rw [← Option.some.inj he]
            exact ⟨rfl, rfl⟩
  · intro hfit
    obtain ⟨b1, hf, hb1⟩ := grant_fold_fits ts [] hfit (by rw [List.length_nil]; omega)
    rw [main_child_of_tokens_cons cmd t0 ts h, hf, Option.some_bind, buf_string_ok b1 hb1,
      Option.map_some']
    exact ⟨_, rfl⟩
  · intro cmd2 u0 h2
    rw [main_child_of_tokens_cons cmd t0 ts h, main_child_of_tokens_cons cmd2 u0 ts h2]
    generalize grant_fold ts [] = X
    cases X with
    | none => rfl
    | some b =>
        rw [Option.some_bind, Option.some_bind]
        generalize buf_string b = Y
        cases Y with
        | none => rfl
        | some s => rfl

theorem main_child_first_token_witness :
    main_child "+ls -la".toList =
      some ⟨"-1".toList, some "+ls".toList, ["+ls".toList, "-la".toList]⟩ :=
  (main_child_first_token "+ls -la".toList "+ls".toList ["-la".toList] (by decide)).2.2.1
    (by decide)


/-- C16: whenever the child branch reaches `execvp`, the argument vector is the
first token followed by the tokens up to, and without, the leftmost token of
index at least 1 that begins with `+`, in their order; it is the whole token
sequence when there is no such token. The child branch reaches `execvp`
whenever the marked tokens after the first fit the buffer `allowed_writes`. The
tokens are the non-empty pieces of the line between spaces. -/
theorem main_child_argv (cmd : List Char) :
    (∀ e, main_child cmd = some e →
      e.argv = match tokens cmd with
        | [] => []
        | t0 :: ts => t0 :: ts.takeWhile fun t => decide (t.head? ≠ some '+'))
    ∧ ((∀ t ∈ (tokens cmd).tail, t.head? = some '+' → t.length ≤ 2048) →
      ∃ e, main_child cmd = some e ∧
        e.argv = match tokens cmd with
          | [] => []
          | t0 :: ts => t0 :: ts.takeWhile fun t => decide (t.head? ≠ some '+'))
    ∧ tokens cmd = (cmd.splitOn ' ').filter (fun t => decide (t ≠ [])) := by
  have key :
        (∀ e, main_child cmd = some e →
          e.argv = match tokens cmd with
            | [] => []
            | t0 :: ts => t0 :: ts.takeWhile fun t => decide (t.head? ≠ some '+'))
        ∧ ((∀ t ∈ (tokens cmd).tail, t.head? = some '+' → t.length ≤ 2048) →
          ∃ e, main_child cmd = some e ∧
            e.argv = match tokens cmd with
              | [] => []
              | t0 :: ts => t0 :: ts.takeWhile fun t => decide (t.head? ≠ some '+')) := by
    cases htk : tokens cmd with
    | nil =>
        have hm := main_child_of_tokens_nil cmd htk
        refine ⟨fun e he => ?_, fun _ => ⟨_, hm, rfl⟩⟩
        rw [hm] at he
        rw [← Option.some.inj he]
    | cons t0 ts =>
        have hm := main_child_of_tokens_cons cmd t0 ts htk
        refine ⟨fun e he => ?_, fun hfit => ?_⟩
        · rw [hm] at he
          generalize grant_fold ts [] = X at he
          cases X with
          | none => exact absurd he (by simp)
          | some b =>
              rw [Option.some_bind] at he
              generalize buf_string b = Y at he
              cases Y with
              | none => exact absurd he (by simp)
              | some s =>
                  rw [Option.map_some'] at he
                  rw [← Option.some.inj he]
        · obtain ⟨b1, hf, hb1⟩ := grant_fold_fits ts [] hfit (by rw [List.length_nil]; omega)
          rw [hm, hf, Option.some_bind, buf_string_ok b1 hb1, Option.map_some']
          exact ⟨_, rfl, rfl⟩
  exact ⟨key.1, key.2, tokens_eq_pieces cmd⟩

theorem main_child_argv_witness :
    ∃ e, main_child "cat -n +secret.txt -o out.txt".toList = some e ∧
      e.argv = ["cat".toList, "-n".toList] :=
  (main_child_argv "cat -n +secret.txt -o out.txt".toList).2.1 (by decide)

/-- C17: when `m` is the leftmost token of index at least 1 that begins with
`+`, every token is at most 2048 characters long and the line holds no NUL, the
child branch exports the C string of the buffer `allowed_writes` and not the
sentinel: that string is not empty and begins with the characters of `m` after
the `+`; it is exactly those characters when no later token is marked and they
are not empty. -/
theorem main_child_leftmost_grant (cmd t0 m : List Char) (pre post : List (List Char))
    (htok : tokens cmd = t0 :: (pre ++ m :: post))
    (hpre : ∀ t ∈ pre, t.head? ≠ some '+') (hm : m.head? = some '+')
    (hfit : ∀ t ∈ tokens cmd, t.length ≤ 2048) (hnul : NUL ∉ cmd) :
    ∃ e st, main_child cmd = some e
      ∧ grant_loop ((tokenize cmd).length - 1) ⟨tokenize cmd, []⟩ = some st
      ∧ buf_string st.allowed_writes = some e.ALLOWED_WRITES
      ∧ e.ALLOWED_WRITES ≠ []
      ∧ m.drop 1 <+: e.ALLOWED_WRITES
      ∧ ((∀ t ∈ post, t.head? ≠ some '+') → m.drop 1 ≠ [] →
          e.ALLOWED_WRITES = m.drop 1) := by
  have hts_mem : ∀ t ∈ pre ++ m :: post, t ∈ tokens cmd := fun t ht => by
    rw [htok]; exact List.mem_cons_of_mem _ ht
  have hfit_ts : ∀ t ∈ pre ++ m :: post, t.head? = some '+' → t.length ≤ 2048 :=
    fun t ht _ => hfit t (hts_mem t ht)
  have hnul_ts : ∀ t ∈ pre ++ m :: post, NUL ∉ t := fun t ht hmem =>
    hnul (tokens_subset cmd t (hts_mem t ht) NUL hmem)
  have hne_ts : ∀ t ∈ pre ++ m :: post, t ≠ [] := fun t ht =>
    tokens_ne_nil cmd t (hts_mem t ht)
  have hlen0 : ([] : List Char).length < 2048 := by rw [List.length_nil]; omega
  have hfit_post : ∀ t ∈ post, t.head? = some '+' → t.length ≤ 2048 := fun t ht =>
    hfit_ts t (List.mem_append_right _ (List.mem_cons_of_mem _ ht))
  obtain ⟨b1, hf1, _⟩ := grant_fold_fits post [] hfit_post hlen0
  have hmlen : m.length ≤ 2048 :=
    hfit m (hts_mem m (List.mem_append_right _ (List.mem_cons_self _ _)))
  have hfm := grant_fold_cons_marked m post [] b1 hm hmlen hf1
  have hfall : grant_fold (pre ++ m :: post) [] =
      some (m.drop 1 ++ ([' '] ++ b1.drop 1).drop (m.drop 1).length) := by
    rw [grant_fold_append, hfm, Option.some_bind, grant_fold_unmarked pre _ hpre]
  obtain ⟨b2, hf2, hb2⟩ := grant_fold_fits (pre ++ m :: post) [] hfit_ts hlen0
  have hb2n : NUL ∉ b2 :=
    grant_fold_no_nul (pre ++ m :: post) [] b2 hfit_ts hnul_ts (List.not_mem_nil _) hf2
  have hbw : b2 = m.drop 1 ++ ([' '] ++ b1.drop 1).drop (m.drop 1).length := by
    rw [hfall] at hf2
    exact (Option.some.inj hf2).symm
  have hb2ne : b2 ≠ [] := by
    rw [hbw]
    cases hd : m.drop 1 with
    | nil => simp
    | cons c cs => simp
  have hstr : buf_string b2 = some b2 := by
    rw [buf_string_ok b2 hb2, takeWhile_no_nul b2 hb2n]
  have hs0 : ¬ strlen b2 = 0 := fun h0 => hb2ne (List.length_eq_zero.mp h0)
  have hmain : main_child cmd =
      some ⟨b2, some t0, t0 :: (pre ++ m :: post).takeWhile fun t =>
        decide (t.head? ≠ some '+')⟩ := by
    rw [main_child_of_tokens_cons cmd t0 _ htok, hf2, Option.some_bind, hstr, Option.map_some',
      if_neg hs0]
  have hloop : grant_loop ((tokenize cmd).length - 1) ⟨tokenize cmd, []⟩ =
      some ⟨some t0 :: ((pre ++ m :: post).map grant_mark ++ [none]), b2⟩ := by
    have hl : (some t0 :: ((pre ++ m :: post).map some ++ [none])).length - 1 =
        (pre ++ m :: post).length + 1 := by
      rw [List.length_cons, List.length_append, List.length_map, List.length_singleton]
      omega
    rw [tokenize_of_tokens_cons cmd t0 _ htok, hl,
      grant_loop_eq (pre ++ m :: post) hne_ts (some t0) [none] [], hf2, Option.map_some']
  refine ⟨_, _, hmain, hloop, hstr, hb2ne, ?_, ?_⟩
  · show m.drop 1 <+: b2
    rw [hbw]
    exact List.prefix_append _ _
  · intro hpost hr
    show b2 = m.drop 1
    have hb1 : b1 = [] := by
      rw [grant_fold_unmarked post [] hpost] at hf1
      exact (Option.some.inj hf1).symm
    have h1 : 1 ≤ (m.drop 1).length := List.length_pos.mpr hr
    rw [hbw, hb1]
    have : ([' '] ++ ([] : List Char).drop 1).drop (m.drop 1).length = [] := by
      apply List.drop_eq_nil_of_le
      simpa using h1
    rw [this, List.append_nil]

theorem main_child_leftmost_grant_witness :
    ∃ e st, main_child "cat -n +secret.txt out.txt".toList = some e
      ∧ grant_loop ((tokenize "cat -n +secret.txt out.txt".toList).length - 1)
          ⟨tokenize "cat -n +secret.txt out.txt".toList, []⟩ = some st
      ∧ buf_string st.allowed_writes = some e.ALLOWED_WRITES
      ∧ e.ALLOWED_WRITES ≠ []
      ∧ "secret.txt".toList <+: e.ALLOWED_WRITES
      ∧ ((∀ t ∈ ["out.txt".toList], t.head? ≠ some '+') → "secret.txt".toList ≠ [] →
          e.ALLOWED_WRITES = "secret.txt".toList) :=
  main_child_leftmost_grant "cat -n +secret.txt out.txt".toList "cat".toList
    "+secret.txt".toList ["-n".toList] ["out.txt".toList] (by decide) (by decide) (by decide)
    (by decide) (by decide)


/-! ## Properties of `isol_brace`, of the flags of `open_2` and of `equal_string` -/

/-- C13: on a string not wrapped in `<` and `>` (the empty string, `<` and `>`
among them) `isol_brace` returns its argument; on `<` ++ s ++ `>` it returns a
fresh block holding exactly the characters of `s`, without a terminator, so
that no C string can be read from the result. -/
theorem isol_brace_result (s : List Char) (hlen : s.length + 2 < SIZE_MOD) :
    (¬ (s.head? = some '<' ∧ s.getLast? = some '>') → isol_brace s = some (.string s))
    ∧ isol_brace ('<' :: (s ++ ['>'])) = some (.block s)
    ∧ (NUL ∉ s → (CharPtr.block s).read = none)
    ∧ isol_brace [] = some (.string [])
    ∧ isol_brace ['<'] = some (.string ['<'])
    ∧ isol_brace ['>'] = some (.string ['>']) := by
  have hl : s.length < SIZE_MOD := by omega
  have h1 : ([' '] : List Char).length < SIZE_MOD := by
    rw [List.length_singleton]; norm_num [SIZE_MOD]
  refine ⟨isol_brace_plain s hl, isol_brace_wrapped s hlen, fun hn => ?_, ?_, ?_, ?_⟩
  · simp [CharPtr.read, hn]
  · exact isol_brace_plain [] (by rw [List.length_nil]; norm_num [SIZE_MOD]) (by simp)
  · exact isol_brace_plain ['<'] h1 (by simp)
  · exact isol_brace_plain ['>'] h1 (by simp)

theorem isol_brace_result_witness :
    isol_brace "data.txt".toList = some (.string "data.txt".toList)
    ∧ isol_brace "<data.txt>".toList = some (.block "data.txt".toList)
    ∧ (CharPtr.block "data.txt".toList).read = none :=
  have h := isol_brace_result "data.txt".toList (by decide)
  ⟨h.1 (by decide), h.2.1, h.2.2.1 (by decide)⟩

/-- C14 as amended: on a string `s` not wrapped in `<` and `>`, `isol_brace`
returns `s` itself, so applying it again to its result gives the same result;
and the characters `isol_brace` leaves of `<` ++ s ++ `>` are those of `s`, which
a further application leaves unchanged. -/
theorem isol_brace_idempotent_plain (s : List Char) (hlen : s.length + 2 < SIZE_MOD)
    (hp : ¬ (s.head? = some '<' ∧ s.getLast? = some '>')) :
    isol_brace s = some (.string s)
    ∧ ((isol_brace s).bind fun p => p.read.bind isol_brace) = isol_brace s
    ∧ (isol_brace ('<' :: (s ++ ['>']))).map CharPtr.chars = some s
    ∧ (isol_brace s).map CharPtr.chars = some s := by
  have hl : s.length < SIZE_MOD := by omega
  have h := isol_brace_plain s hl hp
  refine ⟨h, ?_, ?_, ?_⟩
  · rw [h]
    show isol_brace s = some (.string s)
    exact h
  · rw [isol_brace_wrapped s hlen]
    rfl
  · rw [h]
    rfl

theorem isol_brace_idempotent_plain_witness :
    isol_brace "data.txt".toList = some (.string "data.txt".toList)
    ∧ ((isol_brace "data.txt".toList).bind fun p => p.read.bind isol_brace) =
        isol_brace "data.txt".toList
    ∧ (isol_brace "<data.txt>".toList).map CharPtr.chars = some "data.txt".toList
    ∧ (isol_brace "data.txt".toList).map CharPtr.chars = some "data.txt".toList :=
  isol_brace_idempotent_plain "data.txt".toList (by decide) (by decide)

/-- C14 fails as stated: on the nested decoration `<<a>>` one application leaves
the characters `<a>`, and applying `isol_brace` to those leaves `a`. -/
theorem isol_brace_nested_strips_twice :
    (isol_brace "<<a>>".toList).map CharPtr.chars = some "<a>".toList
    ∧ (isol_brace "<a>".toList).map CharPtr.chars = some "a".toList := by
  decide

theorem strstr_zero_iff (h n : List Char) : strstr h n = some 0 ↔ n <+: h := by
  cases h with
  | nil =>
      by_cases hn : n = []
      · simp [strstr, hn]
      · simp [strstr, hn]
  | cons c cs =>
      by_cases hp : n.isPrefixOf (c :: cs) = true
      · have hpre : n <+: c :: cs := List.isPrefixOf_iff_prefix.mp hp
        simp [strstr, hp, hpre]
      · have hpre : ¬ n <+: c :: cs := fun h => hp (List.isPrefixOf_iff_prefix.mpr h)
        simp only [strstr, hp]
        constructor
        · intro h0
          cases hs : strstr cs n with
          | none => rw [hs] at h0; exact absurd h0 (by simp)
          | some k => rw [hs] at h0; exact absurd h0 (by simp)
        · intro h0
          exact absurd h0 hpre

/-- C18: `equal_string` returns 1 exactly when its two arguments are the same
string, and 0 otherwise. -/
theorem equal_string_iff (a b : List Char) :
    (equal_string a b = 1 ↔ a = b)
    ∧ (equal_string a b = 0 ↔ a ≠ b) := by
  have key : (strlen a = strlen b ∧ strstr a b = some 0) ↔ a = b := by
    constructor
    · rintro ⟨hl, hs⟩
      have hpre : b <+: a := (strstr_zero_iff a b).mp hs
      exact (hpre.eq_of_length hl.symm).symm
    · intro e
      subst e
      exact ⟨rfl, (strstr_zero_iff a a).mpr (List.prefix_refl a)⟩
  unfold equal_string
  by_cases hk : strlen a = strlen b ∧ strstr a b = some 0
  · have e : a = b := key.mp hk
    rw [if_pos hk]
    exact ⟨⟨fun _ => e, fun _ => rfl⟩, ⟨fun h => absurd h (by decide), fun h => absurd e h⟩⟩
  · have e : a ≠ b := fun e => hk (key.mpr e)
    rw [if_neg hk]
    exact ⟨⟨fun h => absurd h (by decide), fun h => absurd h e⟩, ⟨fun _ => e, fun _ => rfl⟩⟩


/-- The decision of `open_2` (undefined, forward this name, or deny) is fixed by
the path, the environment and the access-mode bits `flags & FLAGS`. -/
theorem open_2_by_mode (K : Libc) (env : Environ) (p : List Char) (m : Int) :
    ∃ d : Option (Option CharPtr), ∀ (lo : CharPtr → Int → Int) (flags : Int) (w : World),
      Int.land flags (FLAGS K) = m →
      open_2 K env lo p flags w =
        d.map fun o =>
          match o with
          | some name => open_forward lo name flags w
          | none => open_denied K env p w := by
  by_cases hr : m = K.O_RDONLY
  · cases hc : env.CMD_LINE with
    | none =>
        refine ⟨none, fun lo flags w hm => ?_⟩
        unfold open_2
        simp only [hm, hr, if_true, hc, Option.map_none']
    | some cmd =>
        by_cases hs : (strstr cmd p).isSome = true
        · refine ⟨some (some (.string p)), fun lo flags w hm => ?_⟩
          unfold open_2
          simp only [hm, hr, if_true, hc, hs, Option.map_some']
        · refine ⟨some none, fun lo flags w hm => ?_⟩
          unfold open_2
          simp only [hm, hr, if_true, hc, hs, Option.map_some']
          rfl
  · by_cases hw : m = K.O_RDWR ∨ m = K.O_WRONLY
    · cases h0 : char_at p 0 with
      | none =>
          refine ⟨none, fun lo flags w hm => ?_⟩
          unfold open_2
          simp only [hm, hr, hw, if_true, if_false, h0, Option.none_bind, Option.map_none']
      | some c0 =>
          cases hq : (if c0 = '<' then
              (char_at p (size_sub (strlen p) 1)).map fun cl => decide (cl = '>')
            else some false) with
          | none =>
              refine ⟨none, fun lo flags w hm => ?_⟩
              unfold open_2
              simp only [hm, hr, hw, if_true, if_false, h0, Option.some_bind, hq,
                Option.none_bind, Option.map_none']
          | some wrapped =>
              cases hg : (if wrapped = true then some true
                  else match env.ALLOWED_WRITES with
                    | none => none
                    | some aw => some (strstr aw p).isSome) with
              | none =>
                  refine ⟨none, fun lo flags w hm => ?_⟩
                  unfold open_2
                  simp only [hm, hr, hw, if_true, if_false, h0, Option.some_bind, hq, hg,
                    Option.none_bind, Option.map_none']
              | some granted =>
                  cases granted with
                  | false =>
                      refine ⟨some none, fun lo flags w hm => ?_⟩
                      unfold open_2
                      simp only [hm, hr, hw, if_true, if_false, h0, Option.some_bind, hq, hg,
                        Option.map_some']
                      rfl
                  | true =>
                      by_cases hc : c0 = '<'
                      · cases hi : isol_brace p with
                        | none =>
                            refine ⟨none, fun lo flags w hm => ?_⟩
                            unfold open_2
                            simp only [hm, hr, hw, if_true, if_false, h0, Option.some_bind, hq,
                              hg, if_pos hc, hi, Option.map_none']
                        | some file =>
                            refine ⟨some (some file), fun lo flags w hm => ?_⟩
                            unfold open_2
                            simp only [hm, hr, hw, if_true, if_false, h0, Option.some_bind, hq,
                              hg, if_pos hc, hi, Option.map_some']
                      · refine ⟨some (some (.string p)), fun lo flags w hm => ?_⟩
                        unfold open_2
                        simp only [hm, hr, hw, if_true, if_false, h0, Option.some_bind, hq, hg,
                          if_neg hc, Option.map_some']
    · refine ⟨some none, fun lo flags w hm => ?_⟩
      unfold open_2
      simp only [hm, hr, hw, if_false, Option.map_some']

/-- C15: two flag values that agree on the access-mode bits `flags & FLAGS` get
the same decision from `open_2` for every path and environment: both calls are
undefined, or both forward the same name to the original `open`, each with its
own flags value unchanged, or both are denied with the same audit record. -/
theorem open_2_flags_mode_only (K : Libc) (env : Environ) (lo : CharPtr → Int → Int)
    (p : List Char) (f1 f2 : Int) (w : World)
    (h : Int.land f1 (FLAGS K) = Int.land f2 (FLAGS K)) :
    (open_2 K env lo p f1 w = none ∧ open_2 K env lo p f2 w = none)
    ∨ (∃ name,
        open_2 K env lo p f1 w =
          some (lo name f1, { w with opened := w.opened ++ [(name, f1)] })
        ∧ open_2 K env lo p f2 w =
          some (lo name f2, { w with opened := w.opened ++ [(name, f2)] }))
    ∨ (open_2 K env lo p f1 w =
          some (-1, { w with syslog := w.syslog ++ [⟨env.USERNAME, p⟩], errno := K.EACCES })
        ∧ open_2 K env lo p f2 w =
          some (-1, { w with syslog := w.syslog ++ [⟨env.USERNAME, p⟩], errno := K.EACCES })) := by
  obtain ⟨d, hd⟩ := open_2_by_mode K env p (Int.land f2 (FLAGS K))
  have h1 := hd lo f1 w h
  have h2 := hd lo f2 w rfl
  cases d with
  | none => exact Or.inl ⟨h1, h2⟩
  | some o =>
      cases o with
      | some name => exact Or.inr (Or.inl ⟨name, h1, h2⟩)
      | none => exact Or.inr (Or.inr ⟨h1, h2⟩)

theorem open_2_flags_mode_only_witness :
    Int.land 1 (FLAGS linux) = Int.land 577 (FLAGS linux)
    ∧ ((open_2 linux ⟨none, some "out.txt".toList, none⟩ lo3 "out.txt".toList 1 w0 = none
        ∧ open_2 linux ⟨none, some "out.txt".toList, none⟩ lo3 "out.txt".toList 577 w0 = none)
      ∨ (∃ name,
          open_2 linux ⟨none, some "out.txt".toList, none⟩ lo3 "out.txt".toList 1 w0 =
            some (lo3 name 1, { w0 with opened := w0.opened ++ [(name, 1)] })
          ∧ open_2 linux ⟨none, some "out.txt".toList, none⟩ lo3 "out.txt".toList 577 w0 =
            some (lo3 name 577, { w0 with opened := w0.opened ++ [(name, 577)] }))
      ∨ (open_2 linux ⟨none, some "out.txt".toList, none⟩ lo3 "out.txt".toList 1 w0 =
            some (-1, { w0 with syslog := w0.syslog ++ [⟨none, "out.txt".toList⟩],
                                errno := linux.EACCES })
          ∧ open_2 linux ⟨none, some "out.txt".toList, none⟩ lo3 "out.txt".toList 577 w0 =
            some (-1, { w0 with syslog := w0.syslog ++ [⟨none, "out.txt".toList⟩],
                                errno := linux.EACCES }))) :=
  ⟨by decide, open_2_flags_mode_only linux ⟨none, some "out.txt".toList, none⟩ lo3
    "out.txt".toList 1 577 w0 (by decide)⟩

end Pola
